import Mathlib

/-!
Verification of the feed-polling and metrics logic of the stock dashboard
(Angular app `stock-app-angular`).

The development shallowly embeds the code of
`src/app/stocks-main/utils/feed-calculations.ts`,
`src/app/stocks-main/constant/feed.config.ts` and
`src/app/stocks-main/services/feed.service.ts` (the variant that also tracks
rate directions) into Lean:

* JavaScript numbers are idealised as exact rationals together with the
  explicit non-finite sentinels `NaN`, `+Infinity`, `-Infinity`
  (inductive `JsNum`); IEEE-754 rounding and overflow-to-infinity are not
  modelled, which is harmless for the properties below since they are all
  stated at the level of the exact arithmetic formulas the code computes.
* `parseFloat` is modelled by `parseFloatJs`, following the ECMAScript
  semantics the code relies on: leading whitespace is skipped, an optional
  sign is read, a literal `Infinity` prefix gives an infinity, and otherwise
  the longest numeric prefix (digits, optional fraction, optional exponent)
  is converted; if no numeric prefix exists the result is `NaN`.
* The `FeedService` class state (Angular signals holding `Map`s) becomes the
  structure `FeedServiceState` whose map fields are functions
  `ℕ → Option _`; each method becomes a pure state-transformer.  Fetching is
  asynchronous in the app, so the synchronous body of a polling method only
  *issues* requests; the model records issued requests in a log field and
  applies responses with `processFeeds`, exactly as the `tap` callbacks do.
-/

/-- A JavaScript `number`, idealised: a finite numeric value is an exact
rational, and the three non-finite sentinels are explicit constructors. -/
inductive JsNum where
  | fin : ℚ → JsNum
  | nan : JsNum
  | posInf : JsNum
  | negInf : JsNum
  deriving DecidableEq

/-- JavaScript `isFinite` on a number (the feed values are already numbers
when `isFinite` is applied in `parsePrice`). -/
def jsIsFinite : JsNum → Bool
  | .fin _ => true
  | _ => false

/-- A raw feed price as received from the API: `number | string`
(`Feed.BuyPrice` / `Feed.SellPrice` in `stock.interface.ts`). -/
inductive RawValue where
  | num : JsNum → RawValue
  | str : String → RawValue
  deriving DecidableEq

/-- Whitespace characters `parseFloat` skips before the number. -/
def isWsChar (c : Char) : Bool :=
  c = ' ' || c = '\t' || c = '\n' || c = '\r'

/-- Drop the leading whitespace of the character list. -/
def skipWs : List Char → List Char
  | [] => []
  | c :: cs => if isWsChar c then skipWs cs else c :: cs

/-- Numeric value of a decimal digit character. -/
def digitVal (c : Char) : ℕ := c.toNat - 48

/-- Split the longest run of leading decimal digits off the character list,
returning their values and the rest. -/
def takeDigits : List Char → List ℕ × List Char
  | [] => ([], [])
  | c :: cs =>
    if c.isDigit then
      let r := takeDigits cs
      (digitVal c :: r.1, r.2)
    else ([], c :: cs)

/-- The natural number a digit run denotes. -/
def digitsVal (ds : List ℕ) : ℕ := ds.foldl (fun a d => a * 10 + d) 0

/-- The fractional value a digit run after the decimal point denotes. -/
def fracVal (ds : List ℕ) : ℚ := (digitsVal ds : ℚ) / (10 : ℚ) ^ ds.length

/-- Read an optional leading sign; `true` means negative. -/
def readSign : List Char → Bool × List Char
  | '+' :: cs => (false, cs)
  | '-' :: cs => (true, cs)
  | cs => (false, cs)

/-- Whether the characters start with the literal `Infinity`. -/
def hasInfinityHead : List Char → Bool
  | 'I' :: 'n' :: 'f' :: 'i' :: 'n' :: 'i' :: 't' :: 'y' :: _ => true
  | _ => false

/-- Read an optional exponent part (`e`/`E`, optional sign, digits).  As in
`parseFloat`, an `e` not followed by a digit is not part of the number and
contributes exponent `0`. -/
def readExponent (cs : List Char) : ℤ :=
  match cs with
  | 'e' :: rest | 'E' :: rest =>
    let s := readSign rest
    let d := takeDigits s.2
    if d.1.isEmpty then 0
    else if s.1 then -(digitsVal d.1 : ℤ) else (digitsVal d.1 : ℤ)
  | _ => 0

/-- Convert the longest decimal-literal prefix (digits, optional `.` and
fraction digits, optional exponent); `NaN` when there is no digit at all. -/
def parseDecimal (neg : Bool) (cs : List Char) : JsNum :=
  let i := takeDigits cs
  let f : List ℕ × List Char :=
    match i.2 with
    | '.' :: rest => takeDigits rest
    | _ => ([], i.2)
  if i.1.isEmpty && f.1.isEmpty then JsNum.nan
  else
    let mantissa : ℚ := (digitsVal i.1 : ℚ) + fracVal f.1
    let v := mantissa * (10 : ℚ) ^ readExponent f.2
    JsNum.fin (if neg then -v else v)

/-- ECMAScript `parseFloat` on a string: skip whitespace, read an optional
sign, accept a literal `Infinity`, otherwise convert the longest numeric
prefix; `NaN` if nothing numeric starts the string. -/
def parseFloatJs (s : String) : JsNum :=
  let cs := skipWs s.toList
  let r := readSign cs
  if hasInfinityHead r.2 then (if r.1 then JsNum.negInf else JsNum.posInf)
  else parseDecimal r.1 r.2

/-- Embeds `parsePrice` of `feed-calculations.ts`: a string input goes
through `parseFloat` and a numeric input is used directly; in either case a
non-finite result is replaced by `null` (here `none`). -/
def parsePrice : RawValue → Option JsNum
  | .str s =>
    let parsed := parseFloatJs s
    if jsIsFinite parsed then some parsed else none
  | .num v => if jsIsFinite v then some v else none

/-- The finite rational carried by a `parsePrice` result.  By
`parsePrice_eq_map_fin` below this loses nothing: `parsePrice` never returns
a non-finite number. -/
def parsePriceVal (v : RawValue) : Option ℚ :=
  match parsePrice v with
  | some (.fin q) => some q
  | some _ => none
  | none => none

/-- A normalized feed (`NormalizedFeed` in `stock.interface.ts`): prices are
finite rationals or `none` (the code's `null`), plus the stock id and the
batch timestamp (a `Date`, modelled as an integer instant). -/
structure NormalizedFeed where
  buyPrice : Option ℚ
  sellPrice : Option ℚ
  stockId : ℕ
  timestamp : ℤ
  deriving DecidableEq

/-- A raw feed entry from the API (`Feed` in `stock.interface.ts`):
prices are `number | string`. -/
structure Feed where
  BuyPrice : RawValue
  SellPrice : RawValue
  StockId : ℕ
  deriving DecidableEq

/-- The feeds-endpoint response (`FeedsResponse`): a batch of feeds plus the
shared `LastUpdate` timestamp (the ISO string, already parsed to an
instant). -/
structure FeedsResponse where
  Feeds : List Feed
  LastUpdate : ℤ
  deriving DecidableEq

/-- Embeds `calculateSpread` of `feed-calculations.ts`:
`buyPrice - sellPrice`, or `null` when either price is `null`. -/
def calculateSpread (buyPrice sellPrice : Option ℚ) : Option ℚ :=
  match buyPrice, sellPrice with
  | some b, some s => some (b - s)
  | _, _ => none

/-- Embeds `calculatePercentChange` of `feed-calculations.ts`:
`((current - previous) / previous) * 100`, or `null` when either rate is
`null` or the previous rate is zero. -/
def calculatePercentChange (currentSellRate previousSellRate : Option ℚ) : Option ℚ :=
  match currentSellRate, previousSellRate with
  | some current, some previous =>
    if previous = 0 then none
    else some (((current - previous) / previous) * 100)
  | _, _ => none

/-- A feed with its derived metrics (`FeedWithCalculations` in
`stock.interface.ts`). -/
structure FeedWithCalculations where
  feed : NormalizedFeed
  spread : Option ℚ
  sellRateChangePercent : Option ℚ
  deriving DecidableEq

/-- Embeds `calculateFeedMetrics` of `feed-calculations.ts`: map each feed of
the newest-first list, at index `i`, to its spread and to the percent change
of its sell rate against the previous (= older = index `i + 1`) feed;
`feeds[index + 1]` missing makes the percent change `null`. -/
def calculateFeedMetrics (feeds : List NormalizedFeed) : List FeedWithCalculations :=
  feeds.mapIdx fun index feed =>
    { feed := feed
      spread := calculateSpread feed.buyPrice feed.sellPrice
      sellRateChangePercent :=
        match feeds.get? (index + 1) with
        | some previousFeed => calculatePercentChange feed.sellPrice previousFeed.sellPrice
        | none => none }

/-- Modelled from the spec: `calculateDailyBuyRateChange` is imported from
`utils/feed-calculations` by the stocks-list component, but its definition is
not among the repository's files here — only its callers and the documented
`dailyBuyRateChange` declaration in `stock.interface.ts` are.  Per the
spec's Daily Change Summary: the percent change of buy price between the
oldest (last) and newest (first) entries of the newest-first history,
`((newestBuy - oldestBuy) / oldestBuy) * 100`; `0` when fewer than two
entries exist or the oldest buy price is `null`/zero (and `0` when a price
is invalid, per the declaration's doc comment). -/
def calculateDailyBuyRateChange (feeds : List NormalizedFeed) : ℚ :=
  if feeds.length < 2 then 0
  else
    match feeds.head?, feeds.getLast? with
    | some newest, some oldest =>
      match newest.buyPrice, oldest.buyPrice with
      | some newestBuy, some oldestBuy =>
        if oldestBuy = 0 then 0
        else ((newestBuy - oldestBuy) / oldestBuy) * 100
      | _, _ => 0
    | _, _ => 0

/-- The tri-state direction (`RateChangeDirection` in
`stock.interface.ts`). -/
inductive RateChangeDirection where
  | up : RateChangeDirection
  | down : RateChangeDirection
  | neutral : RateChangeDirection
  deriving DecidableEq

/-- Embeds `getDirection` of the feed service: `up` when the current value
is greater than the previous, `down` when smaller, `neutral` when equal or
when either value is `null`/`undefined` (both abscences are `none` here). -/
def getDirection (current previous : Option ℚ) : RateChangeDirection :=
  match current, previous with
  | some c, some p =>
    if c > p then .up
    else if c < p then .down
    else .neutral
  | _, _ => .neutral

/-- Per-stock rate directions (`RateDirections` in the feed service). -/
structure RateDirections where
  buyRateDirection : RateChangeDirection
  sellRateDirection : RateChangeDirection
  deriving DecidableEq

/-- Embeds `calculateRateDirections` of the feed service: compare the buy
and sell sides of the current feed with the previous latest feed
(`previous?.buyPrice` is `undefined` when there is no previous feed, which
`getDirection` maps to `neutral`). -/
def calculateRateDirections (current : NormalizedFeed) (previous : Option NormalizedFeed) :
    RateDirections :=
  { buyRateDirection := getDirection current.buyPrice (previous.bind fun p => p.buyPrice)
    sellRateDirection := getDirection current.sellPrice (previous.bind fun p => p.sellPrice) }

/-- Embeds `normalizeFeed` of the feed service: parse both prices and attach
the shared batch timestamp. -/
def normalizeFeed (feed : Feed) (timestamp : ℤ) : NormalizedFeed :=
  { buyPrice := parsePriceVal feed.BuyPrice
    sellPrice := parsePriceVal feed.SellPrice
    stockId := feed.StockId
    timestamp := timestamp }

/-- Constant `MAX_FEED_HISTORY` of `feed.config.ts`. -/
def MAX_FEED_HISTORY : ℕ := 100

/-- Constant `POLLING_INTERVAL_MS` of `feed.config.ts`. -/
def POLLING_INTERVAL_MS : ℕ := 1000

/-- The polling mode of the feed service (`'all' | 'single'`). -/
inductive PollingMode where
  | all : PollingMode
  | single : PollingMode
  deriving DecidableEq

/-- The state of the `FeedService`: the three signal-held maps (`Map`s keyed
by stock id become functions `ℕ → Option _`), the last-update timestamp and
the rate-direction map, plus the polling bookkeeping.  Fetches are
asynchronous, so the synchronous body of a polling method only issues
requests: `issuedFetches` logs each id list a fetch was issued for, and
`activeTimerTarget` holds the id list the armed recurring (interval) fetch
targets, `none` when no recurring fetch is armed.  `stopSignalGen` counts
how many times `stopPolling$` fired and was replaced. -/
structure FeedServiceState where
  latestFeedsByStock : ℕ → Option NormalizedFeed
  feedHistoryByStock : ℕ → Option (List NormalizedFeed)
  lastUpdate : Option ℤ
  rateDirectionsByStock : ℕ → Option RateDirections
  pollingMode : Option PollingMode
  stopSignalGen : ℕ
  activeTimerTarget : Option (List ℕ)
  issuedFetches : List (List ℕ)

/-- The service's initial state: empty maps, no timestamp, not polling. -/
def initialFeedServiceState : FeedServiceState :=
  { latestFeedsByStock := fun _ => none
    feedHistoryByStock := fun _ => none
    lastUpdate := none
    rateDirectionsByStock := fun _ => none
    pollingMode := none
    stopSignalGen := 0
    activeTimerTarget := none
    issuedFetches := [] }

/-- The history-insert step of `processFeeds`: prepend the new feed (newest
first) and, when the result exceeds `MAX_FEED_HISTORY`, `pop()` the last
(oldest) entry. -/
def pushHistory (normalized : NormalizedFeed) (history : List NormalizedFeed) :
    List NormalizedFeed :=
  let updatedHistory := normalized :: history
  if MAX_FEED_HISTORY < updatedHistory.length then updatedHistory.dropLast
  else updatedHistory

/-- One iteration of the `forEach` loop in `processFeeds` of the feed
service: normalize the feed, compute its rate directions against the
current latest feed (pre-update), then update the rate-direction map, the
latest-feed map and the history map for that stock. -/
def applyFeed (timestamp : ℤ) (s : FeedServiceState) (feed : Feed) : FeedServiceState :=
  let normalized := normalizeFeed feed timestamp
  let previousFeed := s.latestFeedsByStock feed.StockId
  let rateDirections := calculateRateDirections normalized previousFeed
  { s with
    rateDirectionsByStock := fun i =>
      if i = feed.StockId then some rateDirections else s.rateDirectionsByStock i
    latestFeedsByStock := fun i =>
      if i = feed.StockId then some normalized else s.latestFeedsByStock i
    feedHistoryByStock := fun i =>
      if i = feed.StockId then
        some (pushHistory normalized ((s.feedHistoryByStock feed.StockId).getD []))
      else s.feedHistoryByStock i }

/-- Embeds `processFeeds` of the feed service: set `lastUpdate` from the
response, then run the `forEach` loop over the batch. -/
def processFeeds (s : FeedServiceState) (response : FeedsResponse) : FeedServiceState :=
  response.Feeds.foldl (applyFeed response.LastUpdate)
    { s with lastUpdate := some response.LastUpdate }

/-- Embeds `getFeedHistoryForStock` of the feed service: the stored history
`?? []`. -/
def getFeedHistoryForStock (s : FeedServiceState) (stockId : ℕ) : List NormalizedFeed :=
  (s.feedHistoryByStock stockId).getD []

/-- Embeds `getLatestFeedForStock` of the feed service. -/
def getLatestFeedForStock (s : FeedServiceState) (stockId : ℕ) : Option NormalizedFeed :=
  s.latestFeedsByStock stockId

/-- Embeds `stopPolling` of the feed service: fire `stopPolling$` (which
cancels the recurring fetch armed by `takeUntil`), replace the subject and
clear the polling mode.  Cache contents are untouched. -/
def stopPolling (s : FeedServiceState) : FeedServiceState :=
  { s with
    stopSignalGen := s.stopSignalGen + 1
    activeTimerTarget := none
    pollingMode := none }

/-- Embeds `startPollingAllStocks` of the feed service: an empty id list
returns immediately; otherwise stop any existing polling, set mode `'all'`,
issue the initial fetch for all ids and arm the recurring fetch. -/
def startPollingAllStocks (stockIds : List ℕ) (s : FeedServiceState) : FeedServiceState :=
  if stockIds.length = 0 then s
  else
    let s1 := stopPolling s
    { s1 with
      pollingMode := some PollingMode.all
      issuedFetches := s1.issuedFetches ++ [stockIds]
      activeTimerTarget := some stockIds }

/-- Embeds `switchToSingleStockPolling` of the feed service: stop any
existing polling, set mode `'single'`, issue the initial fetch for the one
id and arm the recurring fetch for it. -/
def switchToSingleStockPolling (stockId : ℕ) (s : FeedServiceState) : FeedServiceState :=
  let s1 := stopPolling s
  { s1 with
    pollingMode := some PollingMode.single
    issuedFetches := s1.issuedFetches ++ [[stockId]]
    activeTimerTarget := some [stockId] }

example : parseFloatJs "142.5" = JsNum.fin (285 / 2) := by
  simp [parseFloatJs, skipWs, readSign, hasInfinityHead, parseDecimal, takeDigits,
    digitVal, digitsVal, fracVal, readExponent, isWsChar]
  norm_num
example : parseFloatJs "142.5px" = JsNum.fin (285 / 2) := by
  simp [parseFloatJs, skipWs, readSign, hasInfinityHead, parseDecimal, takeDigits,
    digitVal, digitsVal, fracVal, readExponent, isWsChar]
  norm_num
example : parseFloatJs "-Infinity" = JsNum.negInf := by decide
example : parseFloatJs "abc" = JsNum.nan := by decide
example : parseFloatJs "" = JsNum.nan := by decide
example : parseFloatJs ".5e1" = JsNum.fin 5 := by
  simp [parseFloatJs, skipWs, readSign, hasInfinityHead, parseDecimal, takeDigits,
    digitVal, digitsVal, fracVal, readExponent, isWsChar]
  try norm_num
example : parseFloatJs "  -12e-1" = JsNum.fin (-6 / 5) := by
  simp [parseFloatJs, skipWs, readSign, hasInfinityHead, parseDecimal, takeDigits,
    digitVal, digitsVal, fracVal, readExponent, isWsChar]
  norm_num
example : parsePrice (.str "-Infinity") = none := by decide
example : parsePrice (.str "142.5") = some (JsNum.fin (285 / 2)) := by
  simp [parsePrice, jsIsFinite, parseFloatJs, skipWs, readSign, hasInfinityHead,
    parseDecimal, takeDigits, digitVal, digitsVal, fracVal, readExponent, isWsChar]
  norm_num
example : parsePrice (.num .posInf) = none := by decide

/-- Function `parsePrice` never returns a non-finite number: its result is exactly
the finite value `parsePriceVal` extracts, injected back by `JsNum.fin`. -/
theorem parsePrice_eq_map_fin (v : RawValue) :
    parsePrice v = (parsePriceVal v).map JsNum.fin := by
  cases v with
  | str s =>
    cases h : parseFloatJs s <;>
      simp [parsePrice, parsePriceVal, jsIsFinite, h]
  | num n =>
    cases n <;> simp [parsePrice, parsePriceVal, jsIsFinite]

/-- C3: for every raw input (number or string), `parsePrice` returns a
finite number or `null`, never `NaN` or an infinity — it is a total
function, so it never throws; in particular `"-Infinity"` and the numeric
`Infinity` normalize to `null`, and `"142.5"` normalizes to
`142.5 = 285/2`. -/
theorem parsePrice_finite_or_null :
    (∀ v : RawValue, parsePrice v = none ∨ ∃ q : ℚ, parsePrice v = some (JsNum.fin q))
    ∧ parsePrice (.str "-Infinity") = none
    ∧ parsePrice (.str "142.5") = some (JsNum.fin (285 / 2))
    ∧ parsePrice (.num .posInf) = none := by
  refine ⟨fun v => ?_, by decide, ?_, by decide⟩
  · rw [parsePrice_eq_map_fin]
    cases parsePriceVal v with
    | none => exact Or.inl rfl
    | some q => exact Or.inr ⟨q, rfl⟩
  · simp [parsePrice, jsIsFinite, parseFloatJs, skipWs, readSign, hasInfinityHead,
      parseDecimal, takeDigits, digitVal, digitsVal, fracVal, readExponent, isWsChar]
    norm_num

/-- C10: the string branch of `parsePrice` uses `parseFloat` and only
rejects non-finite results, so a string that merely starts with a numeric
literal, such as `"142.5px"`, yields that prefixed literal's value; `null`
comes back exactly when `parseFloat` of the string (respectively the
numeric input itself) is not finite. -/
theorem parsePrice_leading_numeric_value :
    parsePrice (.str "142.5px") = some (JsNum.fin (285 / 2))
    ∧ (∀ s : String, parsePrice (.str s) = none ↔ jsIsFinite (parseFloatJs s) = false)
    ∧ (∀ n : JsNum, parsePrice (.num n) = none ↔ jsIsFinite n = false) := by
  refine ⟨?_, fun s => ?_, fun n => ?_⟩
  · simp [parsePrice, jsIsFinite, parseFloatJs, skipWs, readSign, hasInfinityHead,
      parseDecimal, takeDigits, digitVal, digitsVal, fracVal, readExponent, isWsChar]
    norm_num
  · cases h : jsIsFinite (parseFloatJs s) <;> simp [parsePrice, h]
  · cases h : jsIsFinite n <;> simp [parsePrice, h]

/-- C5: the per-side direction classification is `up` when current is
greater than previous, `down` when smaller, `neutral` on equality and
`neutral` whenever either side of the comparison is `null`/absent; the
spec's concrete examples (100→110 up, 100→90 down, 100→100 neutral,
previous absent neutral) evaluate as stated. -/
theorem getDirection_classification :
    (∀ c p : ℚ,
      (p < c → getDirection (some c) (some p) = .up)
      ∧ (c < p → getDirection (some c) (some p) = .down)
      ∧ (c = p → getDirection (some c) (some p) = .neutral))
    ∧ (∀ c : Option ℚ, getDirection c none = .neutral)
    ∧ (∀ p : Option ℚ, getDirection none p = .neutral)
    ∧ getDirection (some 110) (some 100) = .up
    ∧ getDirection (some 90) (some 100) = .down
    ∧ getDirection (some 100) (some 100) = .neutral := by
  refine ⟨fun c p => ⟨fun h => ?_, fun h => ?_, fun h => ?_⟩,
    fun c => ?_, fun p => ?_, ?_, ?_, ?_⟩
  · simp [getDirection, h]
  · simp [getDirection, h, asymm h]
  · simp [getDirection, h]
  · cases c <;> rfl
  · cases p <;> rfl
  · norm_num [getDirection]
  · norm_num [getDirection]
  · norm_num [getDirection]

/-- C8: starting poll-all with an empty instrument list is a no-op — the
method returns before stopping the previous polling, changing the mode,
issuing a fetch or arming the timer, so the whole state (scheduler
bookkeeping, fetch log and cache) is exactly as before. -/
theorem startPollingAllStocks_empty_noop :
    ∀ s : FeedServiceState, startPollingAllStocks [] s = s := by
  intro s
  rfl

/-- C7: a polling mode switch (all→one or one→all) leaves every stock's
accumulated history and latest feed untouched — the transitions only cancel
the previous recurring fetch, set the mode and issue the new fetches — and
the round trip all→one→all also preserves every stock's history. -/
theorem modeSwitch_preserves_history :
    ∀ (s : FeedServiceState) (stockId : ℕ) (stockIds : List ℕ) (i : ℕ),
      (switchToSingleStockPolling stockId s).feedHistoryByStock i = s.feedHistoryByStock i
      ∧ (switchToSingleStockPolling stockId s).latestFeedsByStock i = s.latestFeedsByStock i
      ∧ (startPollingAllStocks stockIds s).feedHistoryByStock i = s.feedHistoryByStock i
      ∧ (startPollingAllStocks stockIds s).latestFeedsByStock i = s.latestFeedsByStock i
      ∧ (startPollingAllStocks stockIds (switchToSingleStockPolling stockId
            (startPollingAllStocks stockIds s))).feedHistoryByStock i
          = (startPollingAllStocks stockIds s).feedHistoryByStock i := by
  intro s stockId stockIds i
  have hAllH : ∀ t : FeedServiceState,
      (startPollingAllStocks stockIds t).feedHistoryByStock i = t.feedHistoryByStock i := by
    intro t
    unfold startPollingAllStocks
    split <;> rfl
  have hAllL : ∀ t : FeedServiceState,
      (startPollingAllStocks stockIds t).latestFeedsByStock i = t.latestFeedsByStock i := by
    intro t
    unfold startPollingAllStocks
    split <;> rfl
  exact ⟨rfl, rfl, hAllH s, hAllL s, hAllH _⟩

/-- Indexing a `mapIdx` list: the entry at `i` is the function applied to
`i` and the source entry at `i`. -/
theorem get?_mapIdx {α β : Type} (l : List α) (f : ℕ → α → β) (i : ℕ) :
    (l.mapIdx f).get? i = (l.get? i).map (f i) := by
  induction l generalizing f i with
  | nil => simp
  | cons a l ih =>
    cases i with
    | zero => simp [List.mapIdx_cons]
    | succ n => simp [List.mapIdx_cons, ih]

/-- C2: `calculateFeedMetrics` keeps the length and the order of the
newest-first history; the entry at position `i` carries reading `i`, spread
`buy - sell` of reading `i` (`null` when either side is `null`), and
sell-percent-change `(sell_i - sell_(i+1)) / sell_(i+1) * 100` against the
entry at position `i + 1`, `null` when no such entry exists or the previous
sell is `null` or zero. -/
theorem calculateFeedMetrics_row_by_row :
    ∀ feeds : List NormalizedFeed,
      (calculateFeedMetrics feeds).length = feeds.length
      ∧ ∀ (i : ℕ) (f : NormalizedFeed), feeds.get? i = some f →
          ∃ m : FeedWithCalculations,
            (calculateFeedMetrics feeds).get? i = some m
            ∧ m.feed = f
            ∧ m.spread = (match f.buyPrice, f.sellPrice with
                | some b, some s => some (b - s)
                | _, _ => none)
            ∧ m.sellRateChangePercent = (match feeds.get? (i + 1) with
                | some prev =>
                  match f.sellPrice, prev.sellPrice with
                  | some c, some p =>
                    if p = 0 then none else some (((c - p) / p) * 100)
                  | _, _ => none
                | none => none) := by
  intro feeds
  constructor
  · simp [calculateFeedMetrics]
  · intro i f hf
    refine ⟨_, by rw [calculateFeedMetrics, get?_mapIdx, hf, Option.map_some'], rfl, ?_, ?_⟩
    · show calculateSpread f.buyPrice f.sellPrice = _
      cases f.buyPrice <;> cases f.sellPrice <;> rfl
    · show (match feeds.get? (i + 1) with
        | some previousFeed => calculatePercentChange f.sellPrice previousFeed.sellPrice
        | none => none) = _
      cases feeds.get? (i + 1) with
      | none => rfl
      | some prev => cases f.sellPrice <;> cases prev.sellPrice <;> rfl

/-- The data of C2 evaluated on the spec's spread/percent examples: spread
of buy 150.50 / sell 150.25 is 0.25, and sells 110 against previous 100
give a 10 percent change, previous 0 and missing previous give `null`. -/
theorem calculateFeedMetrics_row_by_row_witness :
    ∃ m : FeedWithCalculations,
      (calculateFeedMetrics
          [⟨some (301 / 2), some (601 / 4), 1, 0⟩, ⟨some 110, some 100, 1, 0⟩]).get? 0 = some m
      ∧ m.feed = ⟨some (301 / 2), some (601 / 4), 1, 0⟩
      ∧ m.spread = some (1 / 4)
      ∧ m.sellRateChangePercent = some ((601 / 4 - 100) / 100 * 100) := by
  obtain ⟨m, hm, hfeed, hspread, hpc⟩ :=
    (calculateFeedMetrics_row_by_row
        [⟨some (301 / 2), some (601 / 4), 1, 0⟩, ⟨some 110, some 100, 1, 0⟩]).2 0
      ⟨some (301 / 2), some (601 / 4), 1, 0⟩ rfl
  refine ⟨m, hm, hfeed, ?_, ?_⟩
  · rw [hspread]
    norm_num
  · rw [hpc]
    norm_num

/-- C4 (the function is modelled from the spec — its definition is not among
the staged repository files): `calculateDailyBuyRateChange` of a newest-first
history returns `((newestBuy - oldestBuy) / oldestBuy) * 100` between the
oldest (last position) and newest (position 0) entries, and returns `0` when
the history has fewer than two entries or the oldest buy price is `null` or
zero. -/
theorem calculateDailyBuyRateChange_oldest_newest :
    ∀ feeds : List NormalizedFeed,
      (feeds.length < 2 → calculateDailyBuyRateChange feeds = 0)
      ∧ (∀ oldest : NormalizedFeed, feeds.getLast? = some oldest →
          oldest.buyPrice = none ∨ oldest.buyPrice = some 0 →
          calculateDailyBuyRateChange feeds = 0)
      ∧ (∀ (newest oldest : NormalizedFeed) (nb ob : ℚ),
          2 ≤ feeds.length →
          feeds.head? = some newest → feeds.getLast? = some oldest →
          newest.buyPrice = some nb → oldest.buyPrice = some ob → ob ≠ 0 →
          calculateDailyBuyRateChange feeds = ((nb - ob) / ob) * 100) := by
  intro feeds
  refine ⟨fun h => ?_, fun oldest hlast hnull => ?_, fun newest oldest nb ob hlen hh hl hnb hob hne => ?_⟩
  · simp [calculateDailyBuyRateChange, h]
  · unfold calculateDailyBuyRateChange
    split
    · rfl
    · rw [hlast]
      cases hh : feeds.head? with
      | none => rfl
      | some newest =>
        cases hnull with
        | inl h0 => cases hb : newest.buyPrice <;> simp [h0, hb]
        | inr h0 => cases hb : newest.buyPrice <;> simp [h0, hb]
  · unfold calculateDailyBuyRateChange
    rw [if_neg (by omega), hh, hl]
    simp [hnb, hob, hne]

/-- Lemma: `applyFeed` stores, for its own stock, the pushed history. -/
theorem getFeedHistoryForStock_applyFeed_self (ts : ℤ) (s : FeedServiceState) (feed : Feed) :
    getFeedHistoryForStock (applyFeed ts s feed) feed.StockId
      = pushHistory (normalizeFeed feed ts) (getFeedHistoryForStock s feed.StockId) := by
  simp [getFeedHistoryForStock, applyFeed]

/-- The pushed history always starts with the new feed. -/
theorem pushHistory_head (n : NormalizedFeed) (l : List NormalizedFeed) :
    (pushHistory n l).head? = some n := by
  cases l with
  | nil => rfl
  | cons b t =>
    unfold pushHistory
    dsimp only
    split <;> rfl

/-- Pushing onto a history within the bound keeps it within the bound. -/
theorem pushHistory_length_le (n : NormalizedFeed) (l : List NormalizedFeed)
    (hl : l.length ≤ MAX_FEED_HISTORY) :
    (pushHistory n l).length ≤ MAX_FEED_HISTORY := by
  unfold pushHistory
  dsimp only
  split
  · rw [List.length_dropLast]
    simpa using hl
  · next h => exact not_lt.mp h

/-- Pushing onto a history exactly at capacity keeps everything but the
last (oldest) entry. -/
theorem pushHistory_at_capacity (n : NormalizedFeed) (l : List NormalizedFeed)
    (hl : l.length = MAX_FEED_HISTORY) :
    pushHistory n l = n :: l.dropLast := by
  unfold pushHistory
  dsimp only
  rw [if_pos (by simp [hl])]
  cases l with
  | nil => simp [MAX_FEED_HISTORY] at hl
  | cons b t => rfl

/-- Lemma: `applyFeed` leaves every other stock's three map entries unchanged. -/
theorem applyFeed_frame (ts : ℤ) (s : FeedServiceState) (feed : Feed) (i : ℕ)
    (hne : i ≠ feed.StockId) :
    (applyFeed ts s feed).feedHistoryByStock i = s.feedHistoryByStock i
    ∧ (applyFeed ts s feed).latestFeedsByStock i = s.latestFeedsByStock i
    ∧ (applyFeed ts s feed).rateDirectionsByStock i = s.rateDirectionsByStock i := by
  refine ⟨?_, ?_, ?_⟩ <;> simp [applyFeed, hne]

/-- Lemma: `applyFeed` does not touch the last-update timestamp. -/
theorem applyFeed_lastUpdate (ts : ℤ) (s : FeedServiceState) (feed : Feed) :
    (applyFeed ts s feed).lastUpdate = s.lastUpdate := rfl

/-- One `applyFeed` step preserves the history bound for every stock. -/
theorem applyFeed_bounded (ts : ℤ) (s : FeedServiceState) (feed : Feed)
    (hs : ∀ j, (getFeedHistoryForStock s j).length ≤ MAX_FEED_HISTORY) :
    ∀ j, (getFeedHistoryForStock (applyFeed ts s feed) j).length ≤ MAX_FEED_HISTORY := by
  intro j
  by_cases hj : j = feed.StockId
  · subst hj
    rw [getFeedHistoryForStock_applyFeed_self]
    exact pushHistory_length_le _ _ (hs _)
  · unfold getFeedHistoryForStock
    rw [(applyFeed_frame ts s feed j hj).1]
    exact hs j

/-- The `forEach` loop preserves the history bound for every stock. -/
theorem foldl_applyFeed_bounded (ts : ℤ) :
    ∀ (l : List Feed) (s : FeedServiceState),
      (∀ j, (getFeedHistoryForStock s j).length ≤ MAX_FEED_HISTORY) →
      ∀ j, (getFeedHistoryForStock (l.foldl (applyFeed ts) s) j).length ≤ MAX_FEED_HISTORY := by
  intro l
  induction l with
  | nil => exact fun s hs => hs
  | cons a l ih => exact fun s hs => ih _ (applyFeed_bounded ts s a hs)

/-- A whole batch ingest preserves the history bound for every stock. -/
theorem processFeeds_bounded (s : FeedServiceState) (r : FeedsResponse)
    (hs : ∀ j, (getFeedHistoryForStock s j).length ≤ MAX_FEED_HISTORY) :
    ∀ j, (getFeedHistoryForStock (processFeeds s r) j).length ≤ MAX_FEED_HISTORY :=
  foldl_applyFeed_bounded r.LastUpdate r.Feeds _ (fun j => hs j)

/-- Any sequence of batch ingests preserves the history bound. -/
theorem foldl_processFeeds_bounded :
    ∀ (batches : List FeedsResponse) (s : FeedServiceState),
      (∀ j, (getFeedHistoryForStock s j).length ≤ MAX_FEED_HISTORY) →
      ∀ j, (getFeedHistoryForStock (batches.foldl processFeeds s) j).length ≤ MAX_FEED_HISTORY := by
  intro batches
  induction batches with
  | nil => exact fun s hs => hs
  | cons r batches ih => exact fun s hs => ih _ (processFeeds_bounded s r hs)

/-- C1: from the initial state, any sequence of ingested batches leaves
every stock's history length at most `MAX_FEED_HISTORY = 100`; each loop
iteration for a feed prepends the normalized reading at position 0 of that
stock's history, and when the history already holds 100 entries the insert
evicts exactly the oldest (tail) entry, keeping the rest. -/
theorem feedHistory_bounded_prepend_evict :
    (∀ (batches : List FeedsResponse) (i : ℕ),
        (getFeedHistoryForStock (batches.foldl processFeeds initialFeedServiceState) i).length
          ≤ MAX_FEED_HISTORY)
    ∧ (∀ (ts : ℤ) (s : FeedServiceState) (feed : Feed),
        (getFeedHistoryForStock (applyFeed ts s feed) feed.StockId).head?
          = some (normalizeFeed feed ts))
    ∧ (∀ (ts : ℤ) (s : FeedServiceState) (feed : Feed),
        (getFeedHistoryForStock s feed.StockId).length = MAX_FEED_HISTORY →
          getFeedHistoryForStock (applyFeed ts s feed) feed.StockId
            = normalizeFeed feed ts :: (getFeedHistoryForStock s feed.StockId).dropLast) := by
  refine ⟨?_, ?_, ?_⟩
  · intro batches i
    exact foldl_processFeeds_bounded batches initialFeedServiceState (fun j => Nat.zero_le _) i
  · intro ts s feed
    rw [getFeedHistoryForStock_applyFeed_self]
    exact pushHistory_head _ _
  · intro ts s feed hlen
    rw [getFeedHistoryForStock_applyFeed_self]
    exact pushHistory_at_capacity _ _ hlen

/-- The `forEach` loop leaves a stock none of the feeds name unchanged in
all three maps. -/
theorem foldl_applyFeed_frame (ts : ℤ) (i : ℕ) :
    ∀ (l : List Feed) (s : FeedServiceState), (∀ g ∈ l, g.StockId ≠ i) →
      (l.foldl (applyFeed ts) s).feedHistoryByStock i = s.feedHistoryByStock i
      ∧ (l.foldl (applyFeed ts) s).latestFeedsByStock i = s.latestFeedsByStock i
      ∧ (l.foldl (applyFeed ts) s).rateDirectionsByStock i = s.rateDirectionsByStock i := by
  intro l
  induction l with
  | nil => exact fun s _ => ⟨rfl, rfl, rfl⟩
  | cons a l ih =>
    intro s hl
    have ha : i ≠ a.StockId := fun h => hl a (List.mem_cons_self a l) h.symm
    obtain ⟨h1, h2, h3⟩ := ih (applyFeed ts s a) (fun g hg => hl g (List.mem_cons_of_mem a hg))
    obtain ⟨f1, f2, f3⟩ := applyFeed_frame ts s a i ha
    exact ⟨h1.trans f1, h2.trans f2, h3.trans f3⟩

/-- The `forEach` loop never touches the last-update timestamp. -/
theorem foldl_applyFeed_lastUpdate (ts : ℤ) :
    ∀ (l : List Feed) (s : FeedServiceState), (l.foldl (applyFeed ts) s).lastUpdate = s.lastUpdate := by
  intro l
  induction l with
  | nil => exact fun s => rfl
  | cons a l ih => exact fun s => (ih (applyFeed ts s a)).trans rfl

/-- C9: ingesting a batch modifies only the stocks the batch names: for
every stock id absent from the batch, the history entry, the latest feed
and the rate direction are all unchanged, while the shared last-update
timestamp is set from the response on every ingest. -/
theorem processFeeds_frame_untouched :
    ∀ (s : FeedServiceState) (r : FeedsResponse) (i : ℕ),
      (i ∉ r.Feeds.map Feed.StockId →
        (processFeeds s r).feedHistoryByStock i = s.feedHistoryByStock i
        ∧ (processFeeds s r).latestFeedsByStock i = s.latestFeedsByStock i
        ∧ (processFeeds s r).rateDirectionsByStock i = s.rateDirectionsByStock i)
      ∧ (processFeeds s r).lastUpdate = some r.LastUpdate := by
  intro s r i
  constructor
  · intro hi
    have hne : ∀ g ∈ r.Feeds, g.StockId ≠ i := by
      intro g hg h
      exact hi (h ▸ List.mem_map_of_mem Feed.StockId hg)
    exact foldl_applyFeed_frame r.LastUpdate i r.Feeds _ hne
  · rw [processFeeds, foldl_applyFeed_lastUpdate]

/-- Lemma: `applyFeed` stores, for its own stock, the rate directions computed
against the pre-update latest feed. -/
theorem applyFeed_self_rateDirections (ts : ℤ) (s : FeedServiceState) (feed : Feed) :
    (applyFeed ts s feed).rateDirectionsByStock feed.StockId
      = some (calculateRateDirections (normalizeFeed feed ts)
          (s.latestFeedsByStock feed.StockId)) := by
  simp [applyFeed]

/-- Lemma: `applyFeed` stores, for its own stock, the normalized feed as latest. -/
theorem applyFeed_self_latest (ts : ℤ) (s : FeedServiceState) (feed : Feed) :
    (applyFeed ts s feed).latestFeedsByStock feed.StockId = some (normalizeFeed feed ts) := by
  simp [applyFeed]

/-- After the `forEach` loop, a stock named by the list carries the rate
directions of its last feed in the list, compared against the latest feed
as it stood just before that feed was applied. -/
theorem foldl_applyFeed_last_write (ts : ℤ) (i : ℕ) :
    ∀ (l : List Feed) (s0 : FeedServiceState), i ∈ l.map Feed.StockId →
      ∃ (pre post : List Feed) (f : Feed),
        l = pre ++ f :: post
        ∧ f.StockId = i
        ∧ (∀ g ∈ post, g.StockId ≠ i)
        ∧ (l.foldl (applyFeed ts) s0).rateDirectionsByStock i
            = some (calculateRateDirections (normalizeFeed f ts)
                ((pre.foldl (applyFeed ts) s0).latestFeedsByStock i))
        ∧ (l.foldl (applyFeed ts) s0).latestFeedsByStock i = some (normalizeFeed f ts) := by
  intro l
  induction l using List.reverseRecOn with
  | nil => intro s0 h; simp at h
  | append_singleton l a ih =>
    intro s0 hmem
    by_cases ha : a.StockId = i
    · refine ⟨l, [], a, rfl, ha, by simp, ?_, ?_⟩
      · rw [List.foldl_append]
        subst ha
        simp only [List.foldl_cons, List.foldl_nil]
        rw [applyFeed_self_rateDirections]
      · rw [List.foldl_append]
        subst ha
        simp only [List.foldl_cons, List.foldl_nil]
        rw [applyFeed_self_latest]
    · have hmem' : i ∈ l.map Feed.StockId := by
        simp only [List.map_append, List.mem_append, List.map_cons, List.map_nil,
          List.mem_singleton] at hmem
        rcases hmem with h | h
        · exact h
        · exact absurd h.symm ha
      obtain ⟨pre, post, f, hsplit, hfi, hpost, hrd, hlat⟩ := ih s0 hmem'
      have hai : i ≠ a.StockId := fun h => ha h.symm
      obtain ⟨ff1, ff2, ff3⟩ := applyFeed_frame ts (l.foldl (applyFeed ts) s0) a i hai
      refine ⟨pre, post ++ [a], f, ?_, hfi, ?_, ?_, ?_⟩
      · rw [hsplit]
        simp
      · intro g hg
        rcases List.mem_append.mp hg with h | h
        · exact hpost g h
        · rw [List.mem_singleton.mp h]
          exact fun hh => ha hh
      · rw [List.foldl_append]
        simp only [List.foldl_cons, List.foldl_nil]
        rw [ff3, hrd]
      · rw [List.foldl_append]
        simp only [List.foldl_cons, List.foldl_nil]
        rw [ff2, hlat]

/-- C6: after a batch ingest, every stock the batch names carries the rate
directions computed from that batch's (last) reading for it against the
latest feed as it stood immediately before that reading was applied — the
pre-update latest — and that stored value then stays fixed across ingests
that do not name the stock (it is never recomputed on read). -/
theorem rateDirection_from_latest_ingest :
    ∀ (s : FeedServiceState) (r : FeedsResponse) (i : ℕ),
      (i ∈ r.Feeds.map Feed.StockId →
        ∃ (pre post : List Feed) (f : Feed),
          r.Feeds = pre ++ f :: post
          ∧ f.StockId = i
          ∧ (∀ g ∈ post, g.StockId ≠ i)
          ∧ (processFeeds s r).rateDirectionsByStock i
              = some (calculateRateDirections (normalizeFeed f r.LastUpdate)
                  ((pre.foldl (applyFeed r.LastUpdate)
                      { s with lastUpdate := some r.LastUpdate }).latestFeedsByStock i))
          ∧ (processFeeds s r).latestFeedsByStock i = some (normalizeFeed f r.LastUpdate))
      ∧ (i ∉ r.Feeds.map Feed.StockId →
          (processFeeds s r).rateDirectionsByStock i = s.rateDirectionsByStock i) := by
  intro s r i
  constructor
  · intro hi
    exact foldl_applyFeed_last_write r.LastUpdate i r.Feeds _ hi
  · intro hi
    have hne : ∀ g ∈ r.Feeds, g.StockId ≠ i := by
      intro g hg h
      exact hi (h ▸ List.mem_map_of_mem Feed.StockId hg)
    exact (foldl_applyFeed_frame r.LastUpdate i r.Feeds _ hne).2.2

/-- The data of C1 evaluated at capacity: a stock holding exactly 100
entries gets the new reading at position 0 and loses exactly its oldest
entry on the next ingest step. -/
theorem feedHistory_bounded_prepend_evict_witness :
    (getFeedHistoryForStock
        { initialFeedServiceState with
            feedHistoryByStock := fun i =>
              if i = 1 then some (List.replicate 100 ⟨some 1, some 1, 1, 0⟩) else none }
        1).length = MAX_FEED_HISTORY
    ∧ getFeedHistoryForStock
        (applyFeed 7
          { initialFeedServiceState with
              feedHistoryByStock := fun i =>
                if i = 1 then some (List.replicate 100 ⟨some 1, some 1, 1, 0⟩) else none }
          ⟨.num (.fin 2), .num (.fin 1), 1⟩) 1
      = normalizeFeed ⟨.num (.fin 2), .num (.fin 1), 1⟩ 7
          :: (List.replicate 100 (⟨some 1, some 1, 1, 0⟩ : NormalizedFeed)).dropLast := by
  have hlen : (getFeedHistoryForStock
      { initialFeedServiceState with
          feedHistoryByStock := fun i =>
            if i = 1 then some (List.replicate 100 ⟨some 1, some 1, 1, 0⟩) else none }
      1).length = MAX_FEED_HISTORY := by
    simp [getFeedHistoryForStock, MAX_FEED_HISTORY]
  refine ⟨hlen, ?_⟩
  have h := feedHistory_bounded_prepend_evict.2.2 7
      { initialFeedServiceState with
          feedHistoryByStock := fun i =>
            if i = 1 then some (List.replicate 100 ⟨some 1, some 1, 1, 0⟩) else none }
      ⟨.num (.fin 2), .num (.fin 1), 1⟩ hlen
  simpa [getFeedHistoryForStock] using h

/-- The data of C4 evaluated on the spec's examples: newest buy 110 against
oldest buy 100 gives 10 percent, a single-entry history gives 0. -/
theorem calculateDailyBuyRateChange_oldest_newest_witness :
    calculateDailyBuyRateChange
        [⟨some 110, some 100, 1, 2⟩, ⟨some 105, some 104, 1, 1⟩, ⟨some 100, some 99, 1, 0⟩] = 10
    ∧ calculateDailyBuyRateChange [⟨some 110, some 100, 1, 0⟩] = 0 := by
  constructor
  · rw [(calculateDailyBuyRateChange_oldest_newest
        [⟨some 110, some 100, 1, 2⟩, ⟨some 105, some 104, 1, 1⟩, ⟨some 100, some 99, 1, 0⟩]).2.2
        ⟨some 110, some 100, 1, 2⟩ ⟨some 100, some 99, 1, 0⟩ 110 100
        (by norm_num) rfl rfl rfl rfl (by norm_num)]
    norm_num
  · exact (calculateDailyBuyRateChange_oldest_newest [⟨some 110, some 100, 1, 0⟩]).1 (by norm_num)

/-- The data of C9 evaluated on a one-feed batch for stock 1: stock 2 keeps
its (empty) cache entries and the last-update timestamp is set. -/
theorem processFeeds_frame_untouched_witness :
    2 ∉ (FeedsResponse.mk [Feed.mk (.num (.fin 110)) (.num (.fin 109)) 1] 5).Feeds.map Feed.StockId
    ∧ ((processFeeds initialFeedServiceState
          (FeedsResponse.mk [Feed.mk (.num (.fin 110)) (.num (.fin 109)) 1] 5)).feedHistoryByStock 2
        = initialFeedServiceState.feedHistoryByStock 2
      ∧ (processFeeds initialFeedServiceState
          (FeedsResponse.mk [Feed.mk (.num (.fin 110)) (.num (.fin 109)) 1] 5)).latestFeedsByStock 2
        = initialFeedServiceState.latestFeedsByStock 2
      ∧ (processFeeds initialFeedServiceState
          (FeedsResponse.mk [Feed.mk (.num (.fin 110)) (.num (.fin 109)) 1] 5)).rateDirectionsByStock 2
        = initialFeedServiceState.rateDirectionsByStock 2)
    ∧ (processFeeds initialFeedServiceState
          (FeedsResponse.mk [Feed.mk (.num (.fin 110)) (.num (.fin 109)) 1] 5)).lastUpdate = some 5 := by
  have hmem : 2 ∉ (FeedsResponse.mk
      [Feed.mk (.num (.fin 110)) (.num (.fin 109)) 1] 5).Feeds.map Feed.StockId := by
    decide
  obtain ⟨h1, h2⟩ := processFeeds_frame_untouched initialFeedServiceState
      (FeedsResponse.mk [Feed.mk (.num (.fin 110)) (.num (.fin 109)) 1] 5) 2
  exact ⟨hmem, h1 hmem, h2⟩

/-- The data of C6 evaluated on a two-feed batch for stock 1 from the empty
initial state: the stored rate direction comes from the batch's last
reading compared against the latest just before it was applied. -/
theorem rateDirection_from_latest_ingest_witness :
    1 ∈ (FeedsResponse.mk
        [Feed.mk (.num (.fin 100)) (.num (.fin 99)) 1,
          Feed.mk (.num (.fin 110)) (.num (.fin 109)) 1] 5).Feeds.map Feed.StockId
    ∧ ∃ (pre post : List Feed) (f : Feed),
        (FeedsResponse.mk
            [Feed.mk (.num (.fin 100)) (.num (.fin 99)) 1,
              Feed.mk (.num (.fin 110)) (.num (.fin 109)) 1] 5).Feeds = pre ++ f :: post
        ∧ f.StockId = 1
        ∧ (∀ g ∈ post, g.StockId ≠ 1)
        ∧ (processFeeds initialFeedServiceState
            (FeedsResponse.mk
              [Feed.mk (.num (.fin 100)) (.num (.fin 99)) 1,
                Feed.mk (.num (.fin 110)) (.num (.fin 109)) 1] 5)).rateDirectionsByStock 1
            = some (calculateRateDirections
                (normalizeFeed f (FeedsResponse.mk
                  [Feed.mk (.num (.fin 100)) (.num (.fin 99)) 1,
                    Feed.mk (.num (.fin 110)) (.num (.fin 109)) 1] 5).LastUpdate)
                ((pre.foldl (applyFeed (FeedsResponse.mk
                      [Feed.mk (.num (.fin 100)) (.num (.fin 99)) 1,
                        Feed.mk (.num (.fin 110)) (.num (.fin 109)) 1] 5).LastUpdate)
                    { initialFeedServiceState with lastUpdate := some (FeedsResponse.mk
                        [Feed.mk (.num (.fin 100)) (.num (.fin 99)) 1,
                          Feed.mk (.num (.fin 110)) (.num (.fin 109)) 1] 5).LastUpdate }).latestFeedsByStock 1))
        ∧ (processFeeds initialFeedServiceState
            (FeedsResponse.mk
              [Feed.mk (.num (.fin 100)) (.num (.fin 99)) 1,
                Feed.mk (.num (.fin 110)) (.num (.fin 109)) 1] 5)).latestFeedsByStock 1
            = some (normalizeFeed f (FeedsResponse.mk
                [Feed.mk (.num (.fin 100)) (.num (.fin 99)) 1,
                  Feed.mk (.num (.fin 110)) (.num (.fin 109)) 1] 5).LastUpdate) := by
  have hmem : 1 ∈ (FeedsResponse.mk
      [Feed.mk (.num (.fin 100)) (.num (.fin 99)) 1,
        Feed.mk (.num (.fin 110)) (.num (.fin 109)) 1] 5).Feeds.map Feed.StockId := by
    decide
  exact ⟨hmem, (rateDirection_from_latest_ingest initialFeedServiceState
    (FeedsResponse.mk
      [Feed.mk (.num (.fin 100)) (.num (.fin 99)) 1,
        Feed.mk (.num (.fin 110)) (.num (.fin 109)) 1] 5) 1).1 hmem⟩
